import Mathlib

/-!
Shallow embedding of the concurrency and caching core of `sputil`
(`src/single/sputil.hpp`): the blocking queue
`sputil::concurrency::ConcurrentQueue`, the rate limiter
`sputil::concurrency::RateLimiter`, the worker pool
`sputil::threading::ThreadPool`, and the LRU cache
`sputil::algorithm::LRUCache`.

Mutable state is made explicit: each operation is a pure function from
state to state (and result).  Blocking is modelled by `Option`: a `pop`
that would block (its condition-variable wait predicate is false and
nothing within the call can satisfy it) is `none`.  Time is modelled as
`Nat` milliseconds, matching the `std::chrono::milliseconds` casts in the
source, and `sleep_for` is modelled as sleeping exactly the requested
duration.
-/

namespace Sputil

/-! ## ConcurrentQueue (sputil.hpp lines 469-516)

The C++ state is `std::queue<T> queue` guarded by a mutex and a condition
variable.  We model the queue contents as a `List T` with the head of the
list as the front of the queue.  There is no other state: the class has
no `closed` flag and no `close()` member. -/

namespace ConcurrentQueue

/-- Embedding of `ConcurrentQueue::push` (lines 478-485): appends the
value at the tail of the queue.  It always succeeds. -/
def push {T : Type} (q : List T) (x : T) : List T := q ++ [x]

/-- Embedding of `ConcurrentQueue::pop` (lines 487-494): the caller waits
on `condition.wait(lock, [this]{ return !queue.empty(); })` and then
removes and returns the front element.  `none` means the wait predicate
is false, i.e. the call blocks on an empty queue. -/
def pop {T : Type} (q : List T) : Option (T × List T) :=
  match q with
  | [] => none
  | x :: xs => some (x, xs)

/-- Embedding of `ConcurrentQueue::try_pop` (lines 496-503): returns
`false` immediately on an empty queue, otherwise removes the front. -/
def try_pop {T : Type} (q : List T) : Option (T × List T) :=
  match q with
  | [] => none
  | x :: xs => some (x, xs)

/-- Sequence of pushes from a single producer, in order. -/
def pushAll {T : Type} (q : List T) (xs : List T) : List T :=
  xs.foldl push q

/-- Repeated `pop` collecting the returned items, with explicit fuel; it
stops when `pop` would block. -/
def drain {T : Type} : Nat → List T → List T
  | 0, _ => []
  | Nat.succ n, q =>
    match pop q with
    | none => []
    | some (x, r) => x :: drain n r

end ConcurrentQueue

/-! ## RateLimiter (sputil.hpp lines 518-543)

State: `last_call` (a steady-clock time point) and `min_delay`
(milliseconds).  The constructor sets `last_call` to the construction
time and `min_delay` to `1000 / calls_per_second` (integer division of
the 1000 ms interval). -/

namespace RateLimiter

/-- Embedding of the constructor's `min_delay` initialisation (line 528):
`std::chrono::milliseconds(1000 / calls_per_second)`. -/
def minDelay (calls_per_second : Nat) : Nat := 1000 / calls_per_second

/-- Embedding of the sleep performed by `acquire` (lines 530-542): with
`elapsed = now - last_call`, the call sleeps `min_delay - elapsed` when
`elapsed < min_delay` and otherwise does not sleep. -/
def acquireWaitTime (last_call min_delay now : Nat) : Nat :=
  if now - last_call < min_delay then min_delay - (now - last_call) else 0

/-- Embedding of the `last_call` update in `acquire` (line 541): the new
grant time is the steady-clock time after the sleep, i.e. the entry time
plus the wait. -/
def acquireGrant (last_call min_delay now : Nat) : Nat :=
  now + acquireWaitTime last_call min_delay now

end RateLimiter

/-! ## ThreadPool (sputil.hpp lines 377-443)

State: the `stop` flag, the pending-task queue `tasks`, the worker count
(fixed at construction) and a completed-task counter (the number of tasks
workers have executed).  Tasks are identified by a `Nat` index; `enqueue`
appends a task, and the destructor begins shutdown by setting `stop`. -/

structure PoolState where
  stop : Bool
  tasks : List Nat
  workers : Nat
  completed : Nat
deriving DecidableEq, Repr

namespace PoolState

/-- Embedding of the `ThreadPool` constructor (lines 387-412): it stores
`stop = false`, starts `threads` workers and performs no validation of
the thread count. -/
def create (threads : Nat) : PoolState :=
  { stop := false, tasks := [], workers := threads, completed := 0 }

/-- Error raised by `enqueue` on a stopped pool
(`std::runtime_error("enqueue on stopped ThreadPool")`, line 426); the
spec names it `PoolClosed`. -/
inductive PoolError where
  | poolClosed
deriving DecidableEq, Repr

/-- Embedding of `ThreadPool::enqueue` (lines 414-431): under the lock,
if `stop` is set it throws before touching the queue; otherwise it
appends the task.  The result pairs the new state with the error, if
any. -/
def enqueue (s : PoolState) (t : Nat) : PoolState × Option PoolError :=
  if s.stop then (s, some PoolError.poolClosed)
  else ({ s with tasks := s.tasks ++ [t] }, none)

/-- Embedding of the start of `~ThreadPool` (lines 433-442): it sets
`stop = true` under the lock (the subsequent notify and joins do not
change the modelled state). -/
def shutdownBegin (s : PoolState) : PoolState := { s with stop := true }

end PoolState

/-! ## LRUCache (sputil.hpp lines 572-619)

State: `capacity`, the recency list `items` (`std::list<T>`, most
recently used first) and the key set of `cache_map`
(`std::unordered_map<T, iterator>`), modelled as the list `cacheMap` of
its keys.  The iterator values of the map are recoverable from the key
(each key's node in `items`), so only the key set is carried. -/

structure LRUCache (K : Type) where
  capacity : Nat
  items : List K
  cacheMap : List K
deriving DecidableEq, Repr

namespace LRUCache

variable {K : Type} [DecidableEq K]

/-- Embedding of the `LRUCache` constructor (line 581): it stores the
capacity as given — no validation — with empty `items` and `cache_map`. -/
def mkCache (K : Type) (capacity : Nat) : LRUCache K :=
  { capacity := capacity, items := [], cacheMap := [] }

/-- Key-set effect of `cache_map[key] = items.begin()` (line 593):
`operator[]` inserts the key when absent. -/
def insertKey (k : K) (m : List K) : List K :=
  if k ∈ m then m else k :: m

/-- Effect of lines 585-590 of `put`: if the key is found in `cache_map`,
erase it from `items` and from `cache_map`. -/
def eraseIfPresent (c : LRUCache K) (k : K) : LRUCache K :=
  if k ∈ c.cacheMap then
    { c with items := c.items.erase k, cacheMap := c.cacheMap.erase k }
  else c

/-- Effect of lines 592-593 of `put`: `items.push_front(key)` and
`cache_map[key] = items.begin()`. -/
def insertFront (c : LRUCache K) (k : K) : LRUCache K :=
  { c with items := k :: c.items, cacheMap := insertKey k c.cacheMap }

/-- Effect of lines 596-601 of `put`: erase the last element of `items`
from `cache_map` and pop it from `items`.  The source dereferences the
decremented `items.end()`, which requires `items` to be nonempty; on the
(unreachable there) empty list the state is returned unchanged. -/
def evictLast (c : LRUCache K) : LRUCache K :=
  match c.items.getLast? with
  | none => c
  | some a => { c with items := c.items.dropLast, cacheMap := c.cacheMap.erase a }

/-- Embedding of `LRUCache::put` (lines 583-602): erase the key from both
structures if present, push it to the front of `items` and into
`cache_map`, then, if `cache_map.size() > capacity`, evict the last
element of `items` from both. -/
def put (c : LRUCache K) (k : K) : LRUCache K :=
  let c2 := insertFront (eraseIfPresent c k) k
  if c2.capacity < c2.cacheMap.length then evictLast c2 else c2

/-- Embedding of `LRUCache::get` (lines 604-611): if the key is absent
from `cache_map` return `false`; otherwise splice its node to the front
of `items` (the map is untouched) and return `true`. -/
def get (c : LRUCache K) (k : K) : LRUCache K × Bool :=
  if k ∈ c.cacheMap then
    ({ c with items := k :: c.items.erase k }, true)
  else (c, false)

/-- Embedding of `LRUCache::contains` (lines 613-616): a pure lookup in
`cache_map`. -/
def contains (c : LRUCache K) (k : K) : Bool :=
  decide (k ∈ c.cacheMap)

/-- Embedding of `LRUCache::size` (line 618): `items.size()`. -/
def size (c : LRUCache K) : Nat := c.items.length

/-- Folding `put` over a list of keys, in order. -/
def putAll (c : LRUCache K) (ks : List K) : LRUCache K :=
  ks.foldl put c

/-- One observable operation on the cache. -/
inductive CacheOp (K : Type) where
  | putOp (k : K)
  | getOp (k : K)
  | containsOp (k : K)
  | sizeOp
deriving DecidableEq, Repr

/-- State effect of one operation: `contains` and `size` are pure. -/
def applyOp (c : LRUCache K) : CacheOp K → LRUCache K
  | CacheOp.putOp k => put c k
  | CacheOp.getOp k => (get c k).1
  | CacheOp.containsOp _ => c
  | CacheOp.sizeOp => c

/-- Folding a sequence of operations over the cache. -/
def applyOps (c : LRUCache K) (ops : List (CacheOp K)) : LRUCache K :=
  ops.foldl applyOp c

/-- Representation invariant of the cache: no duplicate keys in the
recency list, no duplicate keys in the map, the map's keys are exactly
the keys of the recency list (and as many), and the size is bounded by
the capacity. -/
def Inv (c : LRUCache K) : Prop :=
  c.items.Nodup ∧ c.cacheMap.Nodup ∧
    (∀ k, k ∈ c.cacheMap ↔ k ∈ c.items) ∧
    c.cacheMap.length = c.items.length ∧
    c.items.length ≤ c.capacity

end LRUCache

/-! ## Helper lemmas -/

namespace ConcurrentQueue

theorem pushAll_nil_eq {T : Type} (xs : List T) : pushAll ([] : List T) xs = xs := by
  have h : ∀ (q : List T), pushAll q xs = q ++ xs := by
    induction xs with
    | nil => intro q; simp [pushAll]
    | cons y ys ih =>
      intro q
      simp only [pushAll, List.foldl_cons] at *
      rw [show push q y = q ++ [y] from rfl]
      rw [ih (q ++ [y])]
      simp
  simpa using h []

theorem drain_self {T : Type} (q : List T) : drain q.length q = q := by
  induction q with
  | nil => rfl
  | cons x xs ih => simpa [drain, pop] using ih

end ConcurrentQueue

namespace LRUCache

variable {K : Type} [DecidableEq K]

omit [DecidableEq K] in
theorem inv_mkCache (capacity : Nat) : Inv (mkCache K capacity) := by
  refine ⟨List.nodup_nil, List.nodup_nil, ?_, rfl, Nat.zero_le _⟩
  intro k
  simp [mkCache]

theorem capacity_eraseIfPresent (c : LRUCache K) (k : K) :
    (eraseIfPresent c k).capacity = c.capacity := by
  unfold eraseIfPresent; split <;> rfl

theorem capacity_insertFront (c : LRUCache K) (k : K) :
    (insertFront c k).capacity = c.capacity := rfl

theorem capacity_evictLast (c : LRUCache K) :
    (evictLast c).capacity = c.capacity := by
  unfold evictLast
  cases c.items.getLast? <;> rfl

theorem capacity_put (c : LRUCache K) (k : K) : (put c k).capacity = c.capacity := by
  simp only [put]
  split
  · rw [capacity_evictLast, capacity_insertFront, capacity_eraseIfPresent]
  · rw [capacity_insertFront, capacity_eraseIfPresent]

theorem capacity_get (c : LRUCache K) (k : K) : ((get c k).1).capacity = c.capacity := by
  unfold get; split <;> rfl

theorem capacity_applyOp (c : LRUCache K) (op : CacheOp K) :
    (applyOp c op).capacity = c.capacity := by
  cases op with
  | putOp k => exact capacity_put c k
  | getOp k => exact capacity_get c k
  | containsOp k => rfl
  | sizeOp => rfl

theorem capacity_applyOps (c : LRUCache K) (ops : List (CacheOp K)) :
    (applyOps c ops).capacity = c.capacity := by
  induction ops generalizing c with
  | nil => rfl
  | cons op rest ih =>
    show (applyOps (applyOp c op) rest).capacity = c.capacity
    rw [ih (applyOp c op), capacity_applyOp]

theorem putAll_concat (c : LRUCache K) (ks : List K) (k : K) :
    putAll c (ks ++ [k]) = put (putAll c ks) k := by
  simp [putAll]

theorem capacity_putAll (c : LRUCache K) (ks : List K) :
    (putAll c ks).capacity = c.capacity := by
  induction ks generalizing c with
  | nil => rfl
  | cons x xs ih =>
    show (putAll (put c x) xs).capacity = c.capacity
    rw [ih (put c x), capacity_put]

theorem put_present (c : LRUCache K) (k : K) (hnm : c.cacheMap.Nodup)
    (hlen : c.cacheMap.length ≤ c.capacity) (hk : k ∈ c.cacheMap) :
    put c k = { c with items := k :: c.items.erase k,
                       cacheMap := k :: c.cacheMap.erase k } := by
  have hne : k ∉ c.cacheMap.erase k := hnm.not_mem_erase
  have hlen1 : (c.cacheMap.erase k).length + 1 = c.cacheMap.length :=
    List.length_erase_add_one hk
  simp only [put, eraseIfPresent, insertFront, insertKey, if_pos hk, if_neg hne]
  rw [if_neg]
  simp only [List.length_cons]
  omega

theorem put_fresh_small (c : LRUCache K) (k : K) (hk : k ∉ c.cacheMap)
    (hlen : c.cacheMap.length + 1 ≤ c.capacity) :
    put c k = { c with items := k :: c.items, cacheMap := k :: c.cacheMap } := by
  simp only [put, eraseIfPresent, insertFront, insertKey, if_neg hk]
  rw [if_neg]
  simp only [List.length_cons]
  omega

theorem put_fresh_evict (c : LRUCache K) (k : K) (hk : k ∉ c.cacheMap)
    (l : List K) (a : K) (hitems : c.items = l ++ [a])
    (hcap : c.capacity < c.cacheMap.length + 1) :
    put c k = { c with items := k :: l, cacheMap := (k :: c.cacheMap).erase a } := by
  simp only [put, eraseIfPresent, insertFront, insertKey, if_neg hk, hitems]
  rw [if_pos (by simp only [List.length_cons]; omega)]
  unfold evictLast
  have hcons : k :: (l ++ [a]) = (k :: l) ++ [a] := rfl
  simp only [hcons, List.getLast?_concat, List.dropLast_concat]

theorem put_fresh_evict_nil (c : LRUCache K) (k : K) (hk : k ∉ c.cacheMap)
    (hitems : c.items = []) (hcap : c.capacity < c.cacheMap.length + 1) :
    put c k = { c with items := [], cacheMap := c.cacheMap } := by
  simp only [put, eraseIfPresent, insertFront, insertKey, if_neg hk, hitems]
  rw [if_pos (by simp only [List.length_cons]; omega)]
  unfold evictLast
  have h1 : ([k] : List K).getLast? = some k := rfl
  simp only [h1, List.dropLast_single, List.erase_cons_head]

theorem inv_put (c : LRUCache K) (k : K) (h : Inv c) : Inv (put c k) := by
  obtain ⟨hni, hnm, hmem, hlen, hcap⟩ := h
  by_cases hk : k ∈ c.cacheMap
  · rw [put_present c k hnm (hlen ▸ hcap) hk]
    have hki : k ∈ c.items := (hmem k).mp hk
    have e1 := List.length_erase_add_one hk
    have e2 := List.length_erase_add_one hki
    refine ⟨List.nodup_cons.mpr ⟨hni.not_mem_erase, hni.erase k⟩,
            List.nodup_cons.mpr ⟨hnm.not_mem_erase, hnm.erase k⟩, ?_, ?_, ?_⟩
    · intro x
      simp only [List.mem_cons, hnm.mem_erase_iff, hni.mem_erase_iff, hmem x]
    · simp only [List.length_cons]
      omega
    · simp only [List.length_cons]
      omega
  · have hki : k ∉ c.items := fun hx => hk ((hmem k).mpr hx)
    by_cases hsmall : c.cacheMap.length + 1 ≤ c.capacity
    · rw [put_fresh_small c k hk hsmall]
      refine ⟨List.nodup_cons.mpr ⟨hki, hni⟩, List.nodup_cons.mpr ⟨hk, hnm⟩, ?_, ?_, ?_⟩
      · intro x
        simp only [List.mem_cons, hmem x]
      · simp only [List.length_cons, hlen]
      · simp only [List.length_cons]
        omega
    · push_neg at hsmall
      rcases List.eq_nil_or_concat c.items with hit | ⟨l, a, hit⟩
      · rw [put_fresh_evict_nil c k hk hit hsmall]
        have h0 : c.cacheMap.length = 0 := by rw [hlen, hit]; rfl
        have hm0 : c.cacheMap = [] := List.length_eq_zero.mp h0
        refine ⟨List.nodup_nil, hm0 ▸ hnm, ?_, by simp [hm0], Nat.zero_le _⟩
        intro x
        simp [hm0]
      · rw [List.concat_eq_append] at hit
        rw [put_fresh_evict c k hk l a hit hsmall]
        have hnla : l.Nodup ∧ a ∉ l := by
          rw [hit, List.nodup_append] at hni
          exact ⟨hni.1, fun hx => hni.2.2 hx (List.mem_singleton_self a)⟩
        have hkl : k ∉ l := fun hx => hki (by rw [hit]; exact List.mem_append_left _ hx)
        have hka : k ≠ a := fun hx => hki (by rw [hit, hx]; simp)
        have hamem : a ∈ c.cacheMap := (hmem a).mpr (by rw [hit]; simp)
        have hckm : (k :: c.cacheMap).Nodup := List.nodup_cons.mpr ⟨hk, hnm⟩
        have hacons : a ∈ k :: c.cacheMap := List.mem_cons_of_mem k hamem
        have e1 := List.length_erase_add_one hacons
        have hil : c.items.length = l.length + 1 := by rw [hit]; simp
        refine ⟨List.nodup_cons.mpr ⟨hkl, hnla.1⟩, hckm.erase a, ?_, ?_, ?_⟩
        · intro x
          simp only [hckm.mem_erase_iff, List.mem_cons, hmem x, hit, List.mem_append,
            List.mem_singleton]
          constructor
          · rintro ⟨hxa, hx | hx | hx | hx⟩
            · exact Or.inl hx
            · exact Or.inr hx
            · exact absurd hx hxa
            · exact absurd hx (List.not_mem_nil x)
          · rintro (hx | hx)
            · exact ⟨hx ▸ hka, Or.inl hx⟩
            · exact ⟨fun he => hnla.2 (he ▸ hx), Or.inr (Or.inl hx)⟩
        · simp only [List.length_cons] at e1 ⊢
          omega
        · simp only [List.length_cons]
          omega

theorem inv_get (c : LRUCache K) (k : K) (h : Inv c) : Inv (get c k).1 := by
  obtain ⟨hni, hnm, hmem, hlen, hcap⟩ := h
  unfold get
  by_cases hk : k ∈ c.cacheMap
  · rw [if_pos hk]
    have hki : k ∈ c.items := (hmem k).mp hk
    have e2 := List.length_erase_add_one hki
    refine ⟨List.nodup_cons.mpr ⟨hni.not_mem_erase, hni.erase k⟩, hnm, ?_, ?_, ?_⟩
    · intro x
      simp only [List.mem_cons, hni.mem_erase_iff, hmem x]
      by_cases hx : x = k
      · simp [hx, hki]
      · simp [hx]
    · simp only [List.length_cons]
      omega
    · simp only [List.length_cons]
      omega
  · rw [if_neg hk]
    exact ⟨hni, hnm, hmem, hlen, hcap⟩

theorem inv_applyOp (c : LRUCache K) (op : CacheOp K) (h : Inv c) : Inv (applyOp c op) := by
  cases op with
  | putOp k => exact inv_put c k h
  | getOp k => exact inv_get c k h
  | containsOp k => exact h
  | sizeOp => exact h

theorem inv_applyOps (c : LRUCache K) (ops : List (CacheOp K)) (h : Inv c) :
    Inv (applyOps c ops) := by
  induction ops generalizing c with
  | nil => exact h
  | cons op rest ih => exact ih (applyOp c op) (inv_applyOp c op h)

omit [DecidableEq K] in
theorem take_cons_take (C : Nat) (k : K) (r : List K) :
    (k :: r.take C).take C = (k :: r).take C := by
  cases C with
  | zero => simp
  | succ n =>
    simp only [List.take_succ_cons, List.take_take, Nat.min_eq_left (Nat.le_succ n)]

theorem put_fresh_items (c : LRUCache K) (k : K) (h : Inv c) (hk : k ∉ c.cacheMap) :
    (put c k).items = (k :: c.items).take c.capacity := by
  obtain ⟨hni, hnm, hmem, hlen, hcap⟩ := h
  by_cases hsmall : c.cacheMap.length + 1 ≤ c.capacity
  · rw [put_fresh_small c k hk hsmall]
    have hle : (k :: c.items).length ≤ c.capacity := by
      simp only [List.length_cons]
      omega
    exact (List.take_of_length_le hle).symm
  · push_neg at hsmall
    rcases List.eq_nil_or_concat c.items with hit | ⟨l, a, hit⟩
    · rw [put_fresh_evict_nil c k hk hit hsmall]
      have h0 : c.capacity = 0 := by
        rw [hlen, hit] at hsmall
        simp only [List.length_nil] at hsmall
        omega
      simp [h0, hit]
    · rw [List.concat_eq_append] at hit
      rw [put_fresh_evict c k hk l a hit hsmall]
      have hcapeq : c.capacity = l.length + 1 := by
        rw [hit] at hcap
        rw [hlen, hit] at hsmall
        simp only [List.length_append, List.length_singleton] at hcap hsmall
        omega
      rw [hit, hcapeq]
      have ht : (l ++ [a]).take l.length = l := List.take_left l [a]
      simp only [List.take_succ_cons, ht]

theorem putAll_fresh (C : Nat) (ks : List K) (h : ks.Nodup) :
    Inv (putAll (mkCache K C) ks) ∧ (putAll (mkCache K C) ks).items = ks.reverse.take C := by
  induction ks using List.reverseRecOn with
  | nil => exact ⟨inv_mkCache C, by simp [putAll, mkCache]⟩
  | append_singleton ks k ih =>
    rw [List.nodup_append] at h
    have hkn : k ∉ ks := fun hx => h.2.2 hx (List.mem_singleton_self k)
    obtain ⟨hInv, hitems⟩ := ih h.1
    have hcapC : (putAll (mkCache K C) ks).capacity = C := capacity_putAll _ ks
    have hk : k ∉ (putAll (mkCache K C) ks).cacheMap := by
      rw [hInv.2.2.1 k, hitems]
      intro hm
      exact hkn (List.mem_reverse.mp (List.take_subset _ _ hm))
    constructor
    · rw [putAll_concat]
      exact inv_put _ k hInv
    · rw [putAll_concat, put_fresh_items _ k hInv hk, hitems, hcapC, take_cons_take,
        List.reverse_append]
      rfl

theorem put_mkCache_zero (k : K) : put (mkCache K 0) k = mkCache K 0 := by
  rw [put_fresh_evict_nil (mkCache K 0) k (List.not_mem_nil k) rfl (Nat.lt_succ_self 0)]
  rfl

end LRUCache

/-! ## Claims -/

open LRUCache RateLimiter ConcurrentQueue PoolState

/-- C1 counterexample: the claim says that after `close()` on an empty
queue, `pop()` returns immediately with an end-of-stream indication.
`ConcurrentQueue` has no `close()` member and no closed flag, so the
queue state after any closing attempt is just its contents; on the empty
queue `pop` blocks (`none`) instead of returning end-of-stream. -/
theorem pop_empty_blocks_cex : pop ([] : List Nat) = none := rfl

/-- C1 amended: `ConcurrentQueue` provides no `close()`; `pop()` blocks
exactly when the queue is empty (its wait predicate is
`!queue.empty()`), and on a nonempty queue it immediately removes and
returns the head. -/
theorem pop_blocks_iff_empty (T : Type) (q : List T) :
    (pop q = none ↔ q = []) ∧ ∀ (x : T) (xs : List T), pop (x :: xs) = some (x, xs) := by
  constructor
  · cases q <;> simp [pop]
  · intro x xs
    rfl

/-- C2 counterexample: a `RateLimiter(1)` has `min_delay = 1000` ms and
`last_call` equal to the construction time; the very first `acquire()`
issued at construction time sleeps 1000 ms instead of returning
immediately. -/
theorem first_acquire_waits_cex :
    acquireWaitTime 0 (minDelay 1) 0 = 1000 ∧ acquireWaitTime 0 (minDelay 1) 0 ≠ 0 := by
  constructor <;> decide

/-- C2 amended: since `last_call` is initialised to the construction
time, the first `acquire()` is granted with no wait if and only if at
least `min_delay = 1000 / calls_per_second` milliseconds have already
elapsed since construction; otherwise it sleeps for the remainder. -/
theorem first_acquire_wait_iff (cps t0 now : Nat) (hcps : 0 < cps) (h : t0 ≤ now) :
    acquireWaitTime t0 (minDelay cps) now = 0 ↔ minDelay cps ≤ now - t0 := by
  unfold acquireWaitTime
  split <;> omega

/-- C2 witness: with one call per second, an `acquire()` issued 1000 ms
after construction is the earliest one granted with no wait. -/
theorem first_acquire_wait_iff_witness :
    (0 < 1 ∧ 0 ≤ 1000) ∧
      (acquireWaitTime 0 (minDelay 1) 1000 = 0 ↔ minDelay 1 ≤ 1000 - 0) :=
  ⟨by decide, first_acquire_wait_iff 1 0 1000 (by decide) (by decide)⟩

/-- C3 counterexample: the claim says constructing `LRUCache` or a worker
pool with size 0 fails fast with `CapacityViolation`.  Neither
constructor validates its argument: both succeed at size 0 and produce a
live instance. -/
theorem zero_size_construction_cex :
    mkCache Nat 0 = { capacity := 0, items := [], cacheMap := [] } ∧
      create 0 = { stop := false, tasks := [], workers := 0, completed := 0 } :=
  ⟨rfl, rfl⟩

/-- C3 amended: construction performs no validation of the size
parameter: `LRUCache(n)` stores the capacity `n` as given with empty
state, and `ThreadPool(n)` starts with `stop = false` and `n` workers,
for every `n` including 0. -/
theorem construction_no_validation (n : Nat) :
    (mkCache Nat n).capacity = n ∧ (mkCache Nat n).items = [] ∧
      (create n).workers = n ∧ (create n).stop = false :=
  ⟨rfl, rfl, rfl, rfl⟩

/-- C4: every `enqueue` on a pool whose `stop` flag is set — in
particular on any state after `shutdownBegin` — fails with `PoolClosed`
and leaves the whole state unchanged: the pending-task queue and the
completed-task count are untouched. -/
theorem enqueue_after_shutdown_rejected (s : PoolState) (t : Nat) :
    (s.stop = true → enqueue s t = (s, some PoolError.poolClosed)) ∧
      enqueue (shutdownBegin s) t = (shutdownBegin s, some PoolError.poolClosed) ∧
      (enqueue (shutdownBegin s) t).1.tasks = s.tasks ∧
      (enqueue (shutdownBegin s) t).1.completed = s.completed := by
  refine ⟨fun h => by simp [enqueue, h], ?_, ?_, ?_⟩ <;>
    simp [enqueue, shutdownBegin]

/-- C4 witness: a concrete stopped pool rejects a submission and is
unchanged by it. -/
theorem enqueue_after_shutdown_rejected_witness :
    enqueue { stop := true, tasks := [7], workers := 2, completed := 5 } 9 =
      ({ stop := true, tasks := [7], workers := 2, completed := 5 },
        some PoolError.poolClosed) :=
  (enqueue_after_shutdown_rejected
    { stop := true, tasks := [7], workers := 2, completed := 5 } 9).1 rfl

/-- C5: for capacity `C ≥ 1`, inserting `C + 1` distinct keys
`k1 :: rest` in order into a fresh cache leaves exactly `k1` absent and
every key of `rest` present. -/
theorem lru_eviction (K : Type) [inst : DecidableEq K] (C : Nat) (k1 : K) (rest : List K)
    (hC : 1 ≤ C) (hnd : (k1 :: rest).Nodup) (hlen : rest.length = C) :
    contains (putAll (mkCache K C) (k1 :: rest)) k1 = false ∧
      ∀ k ∈ rest, contains (putAll (mkCache K C) (k1 :: rest)) k = true := by
  obtain ⟨hInv, hitems⟩ := putAll_fresh C (k1 :: rest) hnd
  have hmem := hInv.2.2.1
  have hrevlen : rest.reverse.length = C := by simp [hlen]
  have hitems2 : (putAll (mkCache K C) (k1 :: rest)).items = rest.reverse := by
    rw [hitems, List.reverse_cons, ← hrevlen]
    exact List.take_left _ _
  constructor
  · have hk1 : k1 ∉ rest := (List.nodup_cons.mp hnd).1
    simp [contains, hmem k1, hitems2, List.mem_reverse, hk1]
  · intro k hkr
    simp [contains, hmem k, hitems2, List.mem_reverse, hkr]

/-- C5 witness: with capacity 2, after `put 1`, `put 2`, `put 3` the key
1 is evicted while 2 and 3 are present. -/
theorem lru_eviction_witness :
    contains (putAll (mkCache Nat 2) [1, 2, 3]) 1 = false ∧
      contains (putAll (mkCache Nat 2) [1, 2, 3]) 2 = true ∧
      contains (putAll (mkCache Nat 2) [1, 2, 3]) 3 = true :=
  ⟨(lru_eviction Nat 2 1 [2, 3] (by decide) (by decide) (by decide)).1,
   (lru_eviction Nat 2 1 [2, 3] (by decide) (by decide) (by decide)).2 2 (by decide),
   (lru_eviction Nat 2 1 [2, 3] (by decide) (by decide) (by decide)).2 3 (by decide)⟩

/-- C6: `get` returns exactly the membership answer of `contains`, and
when the key is present it promotes it to the most-recently-used (front)
position; consequently with capacity 2 the sequence `put 1`, `put 2`,
`get 1`, `put 3` evicts key 2 and keeps keys 1 and 3. -/
theorem lru_get_promotes :
    (∀ (K : Type) [inst : DecidableEq K] (c : LRUCache K) (k : K),
        (LRUCache.get c k).2 = contains c k ∧
          (contains c k = true → (LRUCache.get c k).1.items = k :: c.items.erase k)) ∧
      contains (put (LRUCache.get (putAll (mkCache Nat 2) [1, 2]) 1).1 3) 2 = false ∧
      contains (put (LRUCache.get (putAll (mkCache Nat 2) [1, 2]) 1).1 3) 1 = true ∧
      contains (put (LRUCache.get (putAll (mkCache Nat 2) [1, 2]) 1).1 3) 3 = true := by
  refine ⟨?_, by decide, by decide, by decide⟩
  intro K inst c k
  constructor
  · unfold LRUCache.get contains
    by_cases hk : k ∈ c.cacheMap
    · simp [hk]
    · simp [hk]
  · intro h
    have hk : k ∈ c.cacheMap := of_decide_eq_true h
    unfold LRUCache.get
    rw [if_pos hk]

/-- C6 witness: promoting key 1 in the cache reached by `put 1`, `put 2`
moves it to the front of the recency list. -/
theorem lru_get_promotes_witness :
    (LRUCache.get (putAll (mkCache Nat 2) [1, 2]) 1).1.items =
      1 :: (putAll (mkCache Nat 2) [1, 2]).items.erase 1 :=
  (lru_get_promotes.1 Nat (putAll (mkCache Nat 2) [1, 2]) 1).2 (by decide)

/-- C7: pushing any sequence of items into an empty queue from a single
producer and then popping them all returns exactly the pushed items in
push order. -/
theorem fifo_order (T : Type) (xs : List T) :
    drain xs.length (pushAll ([] : List T) xs) = xs := by
  rw [pushAll_nil_eq, drain_self]

/-- C8: starting from a cache of capacity `C ≥ 1`, every sequence of
`put`, `get`, `contains` and `size` operations preserves the invariant:
the size stays at most `C`, the map's keys are exactly the keys of the
recency list, and the recency list has no duplicate keys. -/
theorem lru_invariant_preserved (K : Type) [inst : DecidableEq K] (C : Nat) (hC : 1 ≤ C)
    (ops : List (CacheOp K)) :
    size (applyOps (mkCache K C) ops) ≤ C ∧
      (∀ k, k ∈ (applyOps (mkCache K C) ops).cacheMap ↔
        k ∈ (applyOps (mkCache K C) ops).items) ∧
      (applyOps (mkCache K C) ops).items.Nodup := by
  obtain ⟨h1, h2, h3, h4, h5⟩ := inv_applyOps (mkCache K C) ops (inv_mkCache C)
  have hcap : (applyOps (mkCache K C) ops).capacity = C := capacity_applyOps _ ops
  refine ⟨?_, h3, h1⟩
  unfold size
  omega

/-- C8 witness: a concrete operation sequence on a capacity-2 cache,
with the invariant conclusions instantiated at key 5. -/
theorem lru_invariant_preserved_witness :
    size (applyOps (mkCache Nat 2)
        [CacheOp.putOp 1, CacheOp.putOp 2, CacheOp.getOp 1, CacheOp.putOp 3,
          CacheOp.containsOp 2, CacheOp.sizeOp]) ≤ 2 ∧
      ((5 : Nat) ∈ (applyOps (mkCache Nat 2)
        [CacheOp.putOp 1, CacheOp.putOp 2, CacheOp.getOp 1, CacheOp.putOp 3,
          CacheOp.containsOp 2, CacheOp.sizeOp]).cacheMap ↔
        (5 : Nat) ∈ (applyOps (mkCache Nat 2)
        [CacheOp.putOp 1, CacheOp.putOp 2, CacheOp.getOp 1, CacheOp.putOp 3,
          CacheOp.containsOp 2, CacheOp.sizeOp]).items) ∧
      (applyOps (mkCache Nat 2)
        [CacheOp.putOp 1, CacheOp.putOp 2, CacheOp.getOp 1, CacheOp.putOp 3,
          CacheOp.containsOp 2, CacheOp.sizeOp]).items.Nodup :=
  ⟨(lru_invariant_preserved Nat 2 (by decide)
      [CacheOp.putOp 1, CacheOp.putOp 2, CacheOp.getOp 1, CacheOp.putOp 3,
        CacheOp.containsOp 2, CacheOp.sizeOp]).1,
   (lru_invariant_preserved Nat 2 (by decide)
      [CacheOp.putOp 1, CacheOp.putOp 2, CacheOp.getOp 1, CacheOp.putOp 3,
        CacheOp.containsOp 2, CacheOp.sizeOp]).2.1 5,
   (lru_invariant_preserved Nat 2 (by decide)
      [CacheOp.putOp 1, CacheOp.putOp 2, CacheOp.getOp 1, CacheOp.putOp 3,
        CacheOp.containsOp 2, CacheOp.sizeOp]).2.2⟩

/-- C9: for a positive `calls_per_second`, the enforced minimum spacing
is `1000 / calls_per_second` milliseconds, and any grant issued with
`last_call` recording the previous grant happens at least that many
milliseconds after it. -/
theorem min_spacing_enforced (cps last now : Nat) (hcps : 0 < cps) (hnow : last ≤ now) :
    minDelay cps = 1000 / cps ∧
      last + minDelay cps ≤ acquireGrant last (minDelay cps) now := by
  refine ⟨rfl, ?_⟩
  unfold acquireGrant acquireWaitTime
  split <;> omega

/-- C9 witness: at two calls per second a grant issued 100 ms after the
previous one is delayed to the 500 ms mark. -/
theorem min_spacing_enforced_witness :
    (0 < 2 ∧ 0 ≤ 100) ∧
      (minDelay 2 = 1000 / 2 ∧ 0 + minDelay 2 ≤ acquireGrant 0 (minDelay 2) 100) :=
  ⟨by decide, min_spacing_enforced 2 0 100 (by decide) (by decide)⟩

/-- C10: an `LRUCache` of capacity 0 is constructed without error, and
every `put` immediately evicts the key it just inserted: any sequence of
`put`s leaves the cache in its initial empty state, with `size` 0 and
`contains` false everywhere. -/
theorem zero_capacity_put_evicts (K : Type) [inst : DecidableEq K] (ks : List K) :
    putAll (mkCache K 0) ks = mkCache K 0 ∧
      size (putAll (mkCache K 0) ks) = 0 ∧
      ∀ k, contains (putAll (mkCache K 0) ks) k = false := by
  have hAll : putAll (mkCache K 0) ks = mkCache K 0 := by
    induction ks with
    | nil => rfl
    | cons x xs ih =>
      show putAll (put (mkCache K 0) x) xs = mkCache K 0
      rw [put_mkCache_zero x]
      exact ih
  refine ⟨hAll, by rw [hAll]; rfl, fun k => ?_⟩
  rw [hAll]
  simp [contains, mkCache]

end Sputil
